import Mathlib

/-!
Verification development for the overlay geometry/state engine of the
esign-rantau PDF signing application (source: src/App.tsx, src/types.ts).

The TypeScript source is shallowly embedded: JavaScript numbers are
modelled as rationals (ℚ), `Math.min`/`Math.max`/`Math.abs` as the
explicit functions `qmin`/`qmax`/`qabs`, arrays as lists, and the React
state (signatures, drawings, history) as an explicit `AppState` record.
Trigonometric values (`Math.cos`, `Math.sin`) are abstracted as rational
parameters, with the sign conventions of the source preserved.
-/

namespace ESign

/-- Math.min on rationals, as used throughout App.tsx. -/
def qmin (a b : ℚ) : ℚ := if a ≤ b then a else b

/-- Math.max on rationals, as used throughout App.tsx. -/
def qmax (a b : ℚ) : ℚ := if a ≤ b then b else a

/-- Math.abs on rationals, as used in the snapping logic of App.tsx. -/
def qabs (a : ℚ) : ℚ := if a < 0 then -a else a

/-- Signature element record (src/types.ts, `SignatureElement`).  The
`dataUrl` image payload is an opaque handle, modelled as a natural. -/
structure SigElement where
  id : ℕ
  dataUrl : ℕ
  pageIndex : ℕ
  x : ℚ
  y : ℚ
  width : ℚ
  aspectRatio : ℚ
  rotation : ℚ
  opacity : ℚ
deriving DecidableEq

/-- One normalized free-draw stroke point (src/types.ts, `StrokePoint`). -/
structure StrokePoint where
  x : ℚ
  y : ℚ
deriving DecidableEq

/-- One free-draw stroke (src/types.ts, `Stroke`); the color is the raw
CSS color string. -/
structure Stroke where
  points : List StrokePoint
  color : List Char
  width : ℚ
deriving DecidableEq

/-- Page-indexed stroke lists (src/types.ts, `PageDrawings`), modelled as
an association list. -/
abbrev PageDrawings := List (ℕ × List Stroke)

/-- One history entry: the `{ sigs, draws }` snapshot pushed by
`saveToHistory` and by the drag/resize/rotate commit handlers. -/
structure Snapshot where
  sigs : List SigElement
  draws : PageDrawings
deriving DecidableEq

/-- The mutable application state relevant to history: the `history`
React state (`past`/`future` stacks) plus the live `signatures` and
`drawings` state. -/
structure AppState where
  past : List Snapshot
  future : List Snapshot
  liveSigs : List SigElement
  liveDraws : PageDrawings
deriving DecidableEq

/-- The current live overlay state as a snapshot value. -/
def liveSnap (h : AppState) : Snapshot := ⟨h.liveSigs, h.liveDraws⟩

/-- `saveToHistory` (App.tsx lines 132-137): append the current live
state to the past stack and clear the future stack. -/
def saveToHistory (h : AppState) : AppState :=
  ⟨h.past ++ [liveSnap h], [], h.liveSigs, h.liveDraws⟩

/-- `undo` (App.tsx lines 139-151): no-op when the past stack is empty;
otherwise pop the most recent past entry, push the current live state
onto the front of the future stack, and install the popped entry as the
live state. -/
def undo (h : AppState) : AppState :=
  if h.past = [] then h
  else
    let previous := h.past.getLastD ⟨[], []⟩
    ⟨h.past.dropLast, liveSnap h :: h.future, previous.sigs, previous.draws⟩

/-- `redo` (App.tsx lines 153-164): no-op when the future stack is
empty; otherwise shift the first future entry into the live state and
push the previous live state onto the past stack. -/
def redo (h : AppState) : AppState :=
  match h.future with
  | [] => h
  | next :: rest => ⟨h.past ++ [liveSnap h], rest, next.sigs, next.draws⟩

/-- Install a new live state (the `setSignatures`/`setDrawings` calls a
mutation performs after `saveToHistory`). -/
def setLive (sn : Snapshot) (h : AppState) : AppState :=
  ⟨h.past, h.future, sn.sigs, sn.draws⟩

/-- One recorded mutation: `saveToHistory()` followed by installing the
mutated state, the pattern of every mutating handler in App.tsx. -/
def recordThenMutate (sn : Snapshot) (h : AppState) : AppState :=
  setLive sn (saveToHistory h)

/-- A sequence of recorded mutations. -/
def applyAll (h : AppState) (ss : List Snapshot) : AppState :=
  ss.foldl (fun st sn => recordThenMutate sn st) h

/-- `undo` pressed `k` times. -/
def undoIter : ℕ → AppState → AppState
  | 0, h => h
  | k + 1, h => undoIter k (undo h)

/-- `redo` pressed `k` times. -/
def redoIter : ℕ → AppState → AppState
  | 0, h => h
  | k + 1, h => redoIter k (redo h)

lemma undo_concat (p : List Snapshot) (a : Snapshot) (f : List Snapshot)
    (ls : List SigElement) (ld : PageDrawings) :
    undo ⟨p ++ [a], f, ls, ld⟩ = ⟨p, ⟨ls, ld⟩ :: f, a.sigs, a.draws⟩ := by
  simp [undo, liveSnap, List.getLastD_concat, List.dropLast_concat]

lemma redo_cons (p : List Snapshot) (a : Snapshot) (f : List Snapshot)
    (ls : List SigElement) (ld : PageDrawings) :
    redo ⟨p, a :: f, ls, ld⟩ = ⟨p ++ [⟨ls, ld⟩], f, a.sigs, a.draws⟩ := by
  simp [redo, liveSnap]

lemma undoIter_append (rest : List Snapshot) :
    ∀ (a : Snapshot) (p f : List Snapshot) (ls : List SigElement) (ld : PageDrawings),
      undoIter (rest.length + 1) ⟨p ++ a :: rest, f, ls, ld⟩ =
        ⟨p, rest ++ ⟨ls, ld⟩ :: f, a.sigs, a.draws⟩ := by
  induction rest using List.reverseRecOn with
  | nil =>
    intro a p f ls ld
    simpa [undoIter] using undo_concat p a f ls ld
  | append_singleton ys y ih =>
    intro a p f ls ld
    have hsplit : p ++ a :: (ys ++ [y]) = (p ++ a :: ys) ++ [y] := by simp
    have hlen : (ys ++ [y]).length + 1 = (ys.length + 1) + 1 := by simp
    rw [hlen, hsplit]
    show undoIter (ys.length + 1) (undo ⟨(p ++ a :: ys) ++ [y], f, ls, ld⟩) = _
    rw [undo_concat]
    rw [ih a p (⟨ls, ld⟩ :: f) y.sigs y.draws]
    simp

lemma redoIter_append (ys : List Snapshot) :
    ∀ (y : Snapshot) (p f : List Snapshot) (ls : List SigElement) (ld : PageDrawings),
      redoIter (ys.length + 1) ⟨p, (ys ++ [y]) ++ f, ls, ld⟩ =
        ⟨p ++ ⟨ls, ld⟩ :: ys, f, y.sigs, y.draws⟩ := by
  induction ys with
  | nil =>
    intro y p f ls ld
    simpa [redoIter] using redo_cons p y f ls ld
  | cons b ys ih =>
    intro y p f ls ld
    have hlen : (b :: ys).length + 1 = (ys.length + 1) + 1 := by simp
    rw [hlen]
    show redoIter (ys.length + 1) (redo ⟨p, b :: ((ys ++ [y]) ++ f), ls, ld⟩) = _
    rw [redo_cons]
    rw [ih y (p ++ [(⟨ls, ld⟩ : Snapshot)]) f b.sigs b.draws]
    simp

lemma applyAll_cons (h : AppState) (a : Snapshot) (rest : List Snapshot) :
    applyAll h (a :: rest) = applyAll (recordThenMutate a h) rest := by
  simp [applyAll]

lemma recordThenMutate_mk (p f : List Snapshot) (ls : List SigElement)
    (ld : PageDrawings) (a : Snapshot) :
    recordThenMutate a ⟨p, f, ls, ld⟩ = ⟨p ++ [⟨ls, ld⟩], [], a.sigs, a.draws⟩ := by
  simp [recordThenMutate, setLive, saveToHistory, liveSnap]

lemma applyAll_concat (ys : List Snapshot) :
    ∀ (y : Snapshot) (p f : List Snapshot) (ls : List SigElement) (ld : PageDrawings),
      applyAll ⟨p, f, ls, ld⟩ (ys ++ [y]) = ⟨p ++ ⟨ls, ld⟩ :: ys, [], y.sigs, y.draws⟩ := by
  induction ys with
  | nil =>
    intro y p f ls ld
    simp [applyAll, recordThenMutate_mk]
  | cons b ys ih =>
    intro y p f ls ld
    rw [List.cons_append, applyAll_cons, recordThenMutate_mk]
    rw [ih y (p ++ [(⟨ls, ld⟩ : Snapshot)]) [] b.sigs b.draws]
    simp

lemma undo_of_past_nil (h : AppState) (hp : h.past = []) : undo h = h := by
  simp [undo, hp]

lemma redo_of_future_nil (h : AppState) (hf : h.future = []) : redo h = h := by
  cases h with
  | mk p f ls ld =>
    simp only at hf
    subst hf
    rfl

lemma getD_eq_headD_drop (l : List Snapshot) :
    ∀ (i : ℕ) (d : Snapshot), l.getD i d = (l.drop i).headD d := by
  induction l with
  | nil => intro i d; cases i <;> simp
  | cons a t ih =>
    intro i d
    cases i with
    | zero => simp
    | succ j => simp only [List.getD_cons_succ, List.drop_succ_cons]; exact ih j d

lemma take_getLastD (l : List Snapshot) :
    ∀ (i : ℕ) (d d' : Snapshot), i < l.length → (l.take (i + 1)).getLastD d = l.getD i d' := by
  induction l with
  | nil => intro i d d' hi; simp at hi
  | cons a t ih =>
    intro i d d' hi
    cases i with
    | zero => simp
    | succ j =>
      have hj : j < t.length := by simpa using hi
      rw [List.take_succ_cons, List.getLastD_cons, List.getD_cons_succ]
      exact ih j a d' hj

lemma getD_append_left (l₁ l₂ : List Snapshot) :
    ∀ (i : ℕ) (d : Snapshot), i < l₁.length → (l₁ ++ l₂).getD i d = l₁.getD i d := by
  induction l₁ with
  | nil => intro i d hi; simp at hi
  | cons a t ih =>
    intro i d hi
    cases i with
    | zero => simp
    | succ j =>
      have hj : j < t.length := by simpa using hi
      simpa using ih j d hj

/-- Round-trip core: with at least `n` past entries, `n` undos followed
by `n` redos restore the state exactly. -/
lemma redoIter_undoIter (h : AppState) (n : ℕ) (hn : n ≤ h.past.length) :
    redoIter n (undoIter n h) = h := by
  cases n with
  | zero => rfl
  | succ m =>
    obtain ⟨p, f, ls, ld⟩ := h
    simp only at hn
    have hdl : (p.drop (p.length - (m + 1))).length = m + 1 := by
      rw [List.length_drop]; omega
    rcases hdrop : p.drop (p.length - (m + 1)) with _ | ⟨a, rest⟩
    · rw [hdrop] at hdl; simp at hdl
    · have hrest : rest.length = m := by rw [hdrop] at hdl; simpa using hdl
      have hp : p = p.take (p.length - (m + 1)) ++ a :: rest := by
        rw [← hdrop, List.take_append_drop]
      rw [hp]
      have h1 := undoIter_append rest a (p.take (p.length - (m + 1))) f ls ld
      rw [hrest] at h1
      rw [h1]
      have hfut : rest ++ (⟨ls, ld⟩ : Snapshot) :: f = (rest ++ [⟨ls, ld⟩]) ++ f := by simp
      rw [hfut]
      have h2 := redoIter_append rest (⟨ls, ld⟩ : Snapshot)
        (p.take (p.length - (m + 1))) f a.sigs a.draws
      rw [hrest] at h2
      rw [h2]

/-- Characterization of the state reached by `N` recorded mutations from
a fresh history. -/
lemma applyAll_fresh (s0 : Snapshot) (ys : List Snapshot) (y : Snapshot) :
    applyAll ⟨[], [], s0.sigs, s0.draws⟩ (ys ++ [y]) = ⟨s0 :: ys, [], y.sigs, y.draws⟩ := by
  rw [applyAll_concat ys y [] [] s0.sigs s0.draws]
  simp

/-- Undoing everything from the fully-mutated state lands on the initial
live state with the whole mutation list as the future stack. -/
lemma undoIter_all (s0 : Snapshot) (ys : List Snapshot) (y : Snapshot) :
    undoIter ((ys ++ [y]).length) ⟨s0 :: ys, [], y.sigs, y.draws⟩ =
      ⟨[], ys ++ [y], s0.sigs, s0.draws⟩ := by
  have hlen : (ys ++ [y]).length = ys.length + 1 := by simp
  rw [hlen]
  have h1 := undoIter_append ys s0 [] [] y.sigs y.draws
  simpa using h1

/-- Claim C2.  The history log is a correct two-stack undo/redo machine:
`undo` is a no-op on an empty past stack, `redo` is a no-op on an empty
future stack; for any state with at least `N` past entries, `N` undos
followed by `N` redos restore it exactly; and starting from a fresh
history, after mutations `ss` the live state visited after the `k`-th
undo is the pre-mutation state of mutation `N - k + 1`, while the live
state after the `j`-th redo (following `N` undos) is the post-mutation
state of mutation `j`. -/
theorem undo_redo_round_trip :
    (∀ h : AppState, h.past = [] → undo h = h) ∧
    (∀ h : AppState, h.future = [] → redo h = h) ∧
    (∀ (h : AppState) (n : ℕ), n ≤ h.past.length → redoIter n (undoIter n h) = h) ∧
    (∀ (s0 : Snapshot) (ss : List Snapshot) (k : ℕ), k ≤ ss.length →
      liveSnap (undoIter k (applyAll ⟨[], [], s0.sigs, s0.draws⟩ ss)) =
        (s0 :: ss).getD (ss.length - k) s0) ∧
    (∀ (s0 : Snapshot) (ss : List Snapshot) (j : ℕ), j ≤ ss.length →
      liveSnap (redoIter j (undoIter ss.length (applyAll ⟨[], [], s0.sigs, s0.draws⟩ ss))) =
        (s0 :: ss).getD j s0) := by
  refine ⟨undo_of_past_nil, redo_of_future_nil, redoIter_undoIter, ?_, ?_⟩
  · intro s0 ss k hk
    rcases List.eq_nil_or_concat ss with rfl | ⟨ys, y, rfl⟩
    · have hk0 : k = 0 := by simpa using hk
      subst hk0
      simp [applyAll, undoIter, liveSnap]
    · simp only [List.concat_eq_append] at hk ⊢
      rw [applyAll_fresh]
      have hN : (ys ++ [y]).length = ys.length + 1 := by simp
      cases k with
      | zero =>
        simp only [undoIter, liveSnap, hN, Nat.sub_zero]
        have : ((s0 :: ys) ++ [y]).getD (ys.length + 1) s0 = y := by
          rw [getD_eq_headD_drop]
          have : ((s0 :: ys) ++ [y]).drop (ys.length + 1) = [y] := by
            have h1 : ((s0 :: ys) ++ [y]).drop (s0 :: ys).length = [y] :=
              List.drop_left (s0 :: ys) [y]
            simpa using h1
          rw [this]; rfl
        simpa using this.symm
      | succ m =>
        have hk2 : m + 1 ≤ ys.length + 1 := by rw [hN] at hk; exact hk
        have hdl : ((s0 :: ys).drop (ys.length + 1 - (m + 1))).length = m + 1 := by
          rw [List.length_drop]
          simp only [List.length_cons]
          omega
        rcases hdrop : (s0 :: ys).drop (ys.length + 1 - (m + 1)) with _ | ⟨a, rest⟩
        · rw [hdrop] at hdl; simp at hdl
        · have hrest : rest.length = m := by rw [hdrop] at hdl; simpa using hdl
          have ha : a = (s0 :: ys).getD (ys.length + 1 - (m + 1)) s0 := by
            rw [getD_eq_headD_drop, hdrop]; rfl
          have hrhs : (s0 :: (ys ++ [y])).getD ((ys ++ [y]).length - (m + 1)) s0 = a := by
            rw [hN, ← List.cons_append,
              getD_append_left (s0 :: ys) [y] (ys.length + 1 - (m + 1)) s0
                (by simp only [List.length_cons]; omega)]
            exact ha.symm
          rw [hrhs]
          have hp : s0 :: ys = (s0 :: ys).take (ys.length + 1 - (m + 1)) ++ a :: rest := by
            rw [← hdrop, List.take_append_drop]
          conv_lhs => rw [hp]
          have h1 := undoIter_append rest a
            ((s0 :: ys).take (ys.length + 1 - (m + 1))) [] y.sigs y.draws
          rw [hrest] at h1
          rw [h1]
          rfl
  · intro s0 ss j hj
    rcases List.eq_nil_or_concat ss with rfl | ⟨ys, y, rfl⟩
    · have hj0 : j = 0 := by simpa using hj
      subst hj0
      simp [applyAll, undoIter, redoIter, liveSnap]
    · simp only [List.concat_eq_append] at hj ⊢
      rw [applyAll_fresh, undoIter_all]
      cases j with
      | zero => simp [redoIter, liveSnap]
      | succ m =>
        have hN : (ys ++ [y]).length = ys.length + 1 := by simp
        have hm : m + 1 ≤ ys.length + 1 := by rw [hN] at hj; exact hj
        have htl : ((ys ++ [y]).take (m + 1)).length = m + 1 := by
          rw [List.length_take]; rw [hN]; omega
        rcases List.eq_nil_or_concat ((ys ++ [y]).take (m + 1)) with hnil | ⟨zs, z, hz⟩
        · rw [hnil] at htl; simp at htl
        · rw [List.concat_eq_append] at hz
          have hzs : zs.length = m := by
            have h3 := htl
            rw [hz] at h3
            simpa using h3
          have hzval : z = (ys ++ [y]).getD m s0 := by
            have h2 := take_getLastD (ys ++ [y]) m s0 s0 (by rw [hN]; omega)
            rw [hz, List.getLastD_concat] at h2
            exact h2
          have hrhs : (s0 :: (ys ++ [y])).getD (m + 1) s0 = z := by
            have hcons : (s0 :: (ys ++ [y])).getD (m + 1) s0 = (ys ++ [y]).getD m s0 := by
              simp
            rw [hcons, ← hzval]
          rw [hrhs]
          have hsplit : ys ++ [y] = (zs ++ [z]) ++ (ys ++ [y]).drop (m + 1) := by
            conv_lhs => rw [← List.take_append_drop (m + 1) (ys ++ [y])]
            rw [hz]
          rw [hsplit]
          have h1 := redoIter_append zs z [] ((ys ++ [y]).drop (m + 1)) s0.sigs s0.draws
          rw [hzs] at h1
          rw [h1]
          rfl

/-- Witness for C2 at a concrete two-mutation history. -/
theorem undo_redo_round_trip_witness :
    2 ≤ (applyAll ⟨[], [], [], []⟩
          [⟨[], [(0, [])]⟩, ⟨[], [(0, []), (1, [])]⟩]).past.length ∧
    redoIter 2 (undoIter 2 (applyAll ⟨[], [], [], []⟩
          [⟨[], [(0, [])]⟩, ⟨[], [(0, []), (1, [])]⟩])) =
      applyAll ⟨[], [], [], []⟩ [⟨[], [(0, [])]⟩, ⟨[], [(0, []), (1, [])]⟩] :=
  ⟨by decide,
   undo_redo_round_trip.2.2.1
     (applyAll ⟨[], [], [], []⟩ [⟨[], [(0, [])]⟩, ⟨[], [(0, []), (1, [])]⟩]) 2 (by decide)⟩


/-! ## Session commit (drag/resize/rotate pointer-up handlers)

The three gesture handlers in App.tsx share the same commit logic
(`upHandler` lines 594-613, `handleUp` lines 713-727, `handleRotateUp`
lines 792-806): compare `JSON.stringify` of the session-start signature
list against the current one and, only when they differ, push the
pre-session snapshot onto the past stack and clear the future stack.
`JSON.stringify` on a `SignatureElement[]` is an injective encoding of
the list; it is embedded below as an explicit numeric encoding. -/

/-- Injective serialization of one signature element, standing for its
JSON encoding: every field is listed, rationals by numerator and
denominator. -/
def encodeSig (s : SigElement) : List ℤ :=
  [(s.id : ℤ), (s.dataUrl : ℤ), (s.pageIndex : ℤ),
   s.x.num, (s.x.den : ℤ), s.y.num, (s.y.den : ℤ),
   s.width.num, (s.width.den : ℤ), s.aspectRatio.num, (s.aspectRatio.den : ℤ),
   s.rotation.num, (s.rotation.den : ℤ), s.opacity.num, (s.opacity.den : ℤ)]

/-- Serialization of the whole signature list (`JSON.stringify(sigs)`). -/
def serializeSigs (l : List SigElement) : List (List ℤ) :=
  l.map encodeSig

/-- Commit of a gesture session at pointer-up: `startSnap` is the
snapshot taken by `historyStartRef` at pointer-down; the live state was
already mutated by the move handler.  Pushes history only when the
serialized signature lists differ. -/
def commitSession (startSnap : Snapshot) (h : AppState) : AppState :=
  if serializeSigs startSnap.sigs = serializeSigs h.liveSigs then h
  else ⟨h.past ++ [startSnap], [], h.liveSigs, h.liveDraws⟩

/-- A live-state-only update, as performed by every `setSignatures`
call inside a move handler (drag tick, resize tick, rotate tick). -/
def liveUpdate (f : List SigElement → List SigElement) (h : AppState) : AppState :=
  ⟨h.past, h.future, f h.liveSigs, h.liveDraws⟩

/-- A whole gesture session: snapshot the live state at pointer-down,
run the move ticks, commit at pointer-up. -/
def gestureSession (moves : List (List SigElement → List SigElement))
    (h : AppState) : AppState :=
  let snap := liveSnap h
  let h1 := moves.foldl (fun st f => liveUpdate f st) h
  commitSession snap h1

lemma rat_eq_of_num_den {a b : ℚ} (hn : a.num = b.num) (hd : a.den = b.den) : a = b := by
  exact Rat.ext hn hd

lemma encodeSig_injective : Function.Injective encodeSig := by
  intro s1 s2 h
  simp only [encodeSig, List.cons.injEq, and_true] at h
  obtain ⟨h1, h2, h3, h4, h5, h6, h7, h8, h9, h10, h11, h12, h13, h14, h15⟩ := h
  cases s1; cases s2
  simp only [SigElement.mk.injEq]
  simp only at h1 h2 h3 h4 h5 h6 h7 h8 h9 h10 h11 h12 h13 h14 h15
  refine ⟨by exact_mod_cast h1, by exact_mod_cast h2, by exact_mod_cast h3,
    rat_eq_of_num_den h4 (by exact_mod_cast h5),
    rat_eq_of_num_den h6 (by exact_mod_cast h7),
    rat_eq_of_num_den h8 (by exact_mod_cast h9),
    rat_eq_of_num_den h10 (by exact_mod_cast h11),
    rat_eq_of_num_den h12 (by exact_mod_cast h13),
    rat_eq_of_num_den h14 (by exact_mod_cast h15)⟩

lemma serializeSigs_inj {l1 l2 : List SigElement}
    (h : serializeSigs l1 = serializeSigs l2) : l1 = l2 := by
  have hinj : Function.Injective (List.map encodeSig) :=
    List.map_injective_iff.mpr encodeSig_injective
  exact hinj h

/-- Claim C6.  A session whose serialized element state at commit equals
the session-start snapshot pushes no history entry, and the decision is
exactly the serialized comparison: the commit leaves the state untouched
if and only if the element lists are equal. -/
theorem commit_no_change_records_nothing (startSnap : Snapshot) (h : AppState) :
    (commitSession startSnap h = h ↔ startSnap.sigs = h.liveSigs) ∧
    (startSnap.sigs = h.liveSigs →
      (commitSession startSnap h).past = h.past ∧
      (commitSession startSnap h).future = h.future) := by
  constructor
  · constructor
    · intro heq
      by_contra hne
      have hser : serializeSigs startSnap.sigs ≠ serializeSigs h.liveSigs := by
        intro hs; exact hne (serializeSigs_inj hs)
      rw [commitSession, if_neg hser] at heq
      have hpast := congrArg AppState.past heq
      simp only at hpast
      have := congrArg List.length hpast
      simp at this
    · intro hsig
      rw [commitSession, if_pos (by rw [hsig])]
  · intro hsig
    rw [commitSession, if_pos (by rw [hsig])]
    exact ⟨rfl, rfl⟩

/-- Witness for C6: a session that ends where it started commits
nothing. -/
theorem commit_no_change_records_nothing_witness :
    (⟨[], []⟩ : Snapshot).sigs = (⟨[], [], [], []⟩ : AppState).liveSigs ∧
    (commitSession ⟨[], []⟩ ⟨[], [], [], []⟩).past = ([] : List Snapshot) :=
  ⟨rfl, ((commit_no_change_records_nothing ⟨[], []⟩ ⟨[], [], [], []⟩).2 rfl).1⟩

/-- Claim C7.  Every recording of a history entry — `saveToHistory` for
plain mutations, and the session commit when the session changed the
state — appends exactly one entry to the past stack and clears the
future stack, discarding any redo branch. -/
theorem record_appends_and_clears_future :
    (∀ h : AppState,
      (saveToHistory h).past = h.past ++ [liveSnap h] ∧ (saveToHistory h).future = []) ∧
    (∀ (startSnap : Snapshot) (h : AppState), startSnap.sigs ≠ h.liveSigs →
      (commitSession startSnap h).past = h.past ++ [startSnap] ∧
      (commitSession startSnap h).future = []) := by
  constructor
  · intro h
    exact ⟨rfl, rfl⟩
  · intro startSnap h hne
    have hser : serializeSigs startSnap.sigs ≠ serializeSigs h.liveSigs := by
      intro hs; exact hne (serializeSigs_inj hs)
    rw [commitSession, if_neg hser]
    exact ⟨rfl, rfl⟩

/-- Witness for C7 at a concrete changed session. -/
theorem record_appends_and_clears_future_witness :
    ((⟨[⟨1, 0, 0, 40, 40, 20, 1, 0, 1⟩], []⟩ : Snapshot).sigs ≠
      (⟨[], [⟨[], []⟩], [], []⟩ : AppState).liveSigs) ∧
    ((commitSession ⟨[⟨1, 0, 0, 40, 40, 20, 1, 0, 1⟩], []⟩
        ⟨[], [⟨[], []⟩], [], []⟩).past = [⟨[⟨1, 0, 0, 40, 40, 20, 1, 0, 1⟩], []⟩] ∧
      (commitSession ⟨[⟨1, 0, 0, 40, 40, 20, 1, 0, 1⟩], []⟩
        ⟨[], [⟨[], []⟩], [], []⟩).future = []) :=
  ⟨by decide,
   record_appends_and_clears_future.2 ⟨[⟨1, 0, 0, 40, 40, 20, 1, 0, 1⟩], []⟩
     ⟨[], [⟨[], []⟩], [], []⟩ (by decide)⟩

lemma gestureSession_moves_past (moves : List (List SigElement → List SigElement)) :
    ∀ h : AppState,
      (moves.foldl (fun st f => liveUpdate f st) h).past = h.past ∧
      (moves.foldl (fun st f => liveUpdate f st) h).future = h.future ∧
      (moves.foldl (fun st f => liveUpdate f st) h).liveDraws = h.liveDraws := by
  induction moves with
  | nil => intro h; exact ⟨rfl, rfl, rfl⟩
  | cons f fs ih =>
    intro h
    simpa [List.foldl_cons, liveUpdate] using ih (liveUpdate f h)

/-- Claim C9.  History entries are value snapshots, never corrupted by
later live-state edits: a live-only update leaves both stacks entirely
unchanged; a recorded mutation extends the past stack with exactly the
snapshot of the live state at record time, leaving all previously
recorded entries in place; and a whole gesture session either leaves the
past stack unchanged or appends exactly the pre-session live snapshot,
never modifying an existing entry. -/
theorem history_entries_never_aliased :
    (∀ (f : List SigElement → List SigElement) (h : AppState),
      (liveUpdate f h).past = h.past ∧ (liveUpdate f h).future = h.future) ∧
    (∀ (sn : Snapshot) (h : AppState),
      (recordThenMutate sn h).past = h.past ++ [liveSnap h]) ∧
    (∀ (moves : List (List SigElement → List SigElement)) (h : AppState),
      (gestureSession moves h).past = h.past ∨
      (gestureSession moves h).past = h.past ++ [liveSnap h]) := by
  refine ⟨fun f h => ⟨rfl, rfl⟩, fun sn h => rfl, fun moves h => ?_⟩
  have hmv := gestureSession_moves_past moves h
  rw [gestureSession]
  by_cases hser : serializeSigs (liveSnap h).sigs =
      serializeSigs (moves.foldl (fun st f => liveUpdate f st) h).liveSigs
  · left
    simp only [commitSession, if_pos hser]
    exact hmv.1
  · right
    simp only [commitSession, if_neg hser]
    rw [hmv.1]

/-! ## Snap engine and drag move handler (App.tsx `handleDragStart`,
lines 464-619)

Each pointer-move tick proposes a clamped position, then snaps each
axis: for each of the moving element's three edges (leading, center,
trailing) the loop scans all candidate values, tracking the strictly
smallest distance seen so far (starting from the 0.5 threshold); every
improvement rewrites the proposed position and pushes a guide line;
after the first edge that snapped, remaining edges are skipped. -/

/-- Running state of one axis of the snap scan: the proposed position,
the current strictest distance (`minDiffX`/`minDiffY`), the guide lines
pushed so far, and whether this axis has snapped. -/
structure SnapState where
  nextX : ℚ
  minDiff : ℚ
  lines : List ℚ
  snapped : Bool
deriving DecidableEq

/-- Inner target scan of one edge: `pos` is the edge position computed
once at the top of the edge iteration (`currentEdgePos`), `off` the
edge offset. -/
def snapFold (pos off : ℚ) (ts : List ℚ) (st : SnapState) : SnapState :=
  ts.foldl
    (fun a t =>
      if qabs (pos - t) < a.minDiff then ⟨t - off, qabs (pos - t), a.lines ++ [t], true⟩
      else a)
    st

/-- One edge of the snap scan (App.tsx lines 542-553 and 565-576). -/
def snapEdge (ts : List ℚ) (off : ℚ) (st : SnapState) : SnapState :=
  snapFold (st.nextX + off) off ts st

/-- One axis of the snap scan: edges in leading → center → trailing
order, skipping the rest after the first edge that snapped (`if
(snappedX) break`). -/
def snapAxis (thr : ℚ) (ts : List ℚ) (start : ℚ) (offs : List ℚ) : SnapState :=
  offs.foldl (fun a off => if a.snapped then a else snapEdge ts off a) ⟨start, thr, [], false⟩

/-- A page-scoped snap target rectangle derived from a form-field
annotation (App.tsx lines 316-334). -/
structure SnapRect where
  x : ℚ
  y : ℚ
  width : ℚ
  height : ℚ
deriving DecidableEq

/-- A rendered alignment guide (App.tsx `snapLines` state). -/
structure GuideLine where
  vertical : Bool
  position : ℚ
deriving DecidableEq

/-- The result of one drag move tick for the dragged element. -/
structure MoveResult where
  x : ℚ
  y : ℚ
  lines : List GuideLine
deriving DecidableEq

/-- Derived height percentage of an element
(`sig.width * canvasRatio / sig.aspectRatio`, App.tsx line 505). -/
def hPctOf (sig : SigElement) (canvasRatio : ℚ) : ℚ :=
  sig.width * canvasRatio / sig.aspectRatio

/-- One drag move tick (`moveHandler`, App.tsx lines 492-592): clamp the
proposed position, collect vertical/horizontal snap candidates from the
page edges/center, the same-page siblings and the snap targets, snap
each axis, and clamp the snapped position into the page again. -/
def moveHandler (sig : SigElement) (page : ℕ) (allSigs : List SigElement)
    (targets : List SnapRect) (canvasRatio dx dy : ℚ) : MoveResult :=
  let hPct := hPctOf sig canvasRatio
  let nextX0 := qmin (qmax (sig.x + dx) 0) (100 - sig.width)
  let nextY0 := qmin (qmax (sig.y + dy) 0) (100 - hPct)
  let sibs := allSigs.filter (fun s => ¬(s.id = sig.id ∨ s.pageIndex ≠ page))
  let vSnapPoints := [0, 50, 100] ++
    sibs.flatMap (fun s => [s.x, s.x + s.width / 2, s.x + s.width]) ++
    targets.flatMap (fun t => [t.x, t.x + t.width / 2, t.x + t.width])
  let hSnapPoints := [0, 50, 100] ++
    sibs.flatMap (fun s =>
      [s.y, s.y + hPctOf s canvasRatio / 2, s.y + hPctOf s canvasRatio]) ++
    targets.flatMap (fun t => [t.y, t.y + t.height / 2, t.y + t.height])
  let stX := snapAxis (1 / 2) vSnapPoints nextX0 [0, sig.width / 2, sig.width]
  let stY := snapAxis (1 / 2) hSnapPoints nextY0 [0, hPct / 2, hPct]
  ⟨qmin (qmax stX.nextX 0) (100 - sig.width),
   qmin (qmax stY.nextX 0) (100 - hPct),
   stX.lines.map (fun p => ⟨true, p⟩) ++ stY.lines.map (fun p => ⟨false, p⟩)⟩

/-- Claim C3.  With a same-page sibling at x = 50, width = 20 and a
moving element of width 20 whose proposed position puts its right edge
at 70.3 (left edge 50.3), the drag tick resolves the final x to exactly
50: the left edge is within the 0.5 threshold of the candidate 50 (page
center and sibling left edge) and wins first. -/
theorem snap_resolves_to_fifty :
    (moveHandler ⟨1, 0, 0, 50, 33, 20, 1, 0, 1⟩ 0
      [⟨1, 0, 0, 50, 33, 20, 1, 0, 1⟩, ⟨2, 0, 0, 50, 7, 20, 1, 0, 1⟩] []
      1 (3 / 10) 0).x = 50 ∧
    (moveHandler ⟨1, 0, 0, 50, 33, 20, 1, 0, 1⟩ 0
      [⟨1, 0, 0, 50, 33, 20, 1, 0, 1⟩, ⟨2, 0, 0, 50, 7, 20, 1, 0, 1⟩] []
      1 (3 / 10) 0).x + 20 = 70 := by
  constructor <;>
    norm_num [moveHandler, snapAxis, snapEdge, snapFold, hPctOf, qmin, qmax, qabs,
      List.filter, List.flatMap, List.foldl]

lemma snapFold_cons (pos off t : ℚ) (ts : List ℚ) (st : SnapState) :
    snapFold pos off (t :: ts) st =
      snapFold pos off ts
        (if qabs (pos - t) < st.minDiff then ⟨t - off, qabs (pos - t), st.lines ++ [t], true⟩
         else st) := rfl

lemma snapFold_snapped_mono (pos off : ℚ) (ts : List ℚ) :
    ∀ st : SnapState, st.snapped = true → (snapFold pos off ts st).snapped = true := by
  induction ts with
  | nil => intro st h; exact h
  | cons t ts ih =>
    intro st h
    rw [snapFold_cons]
    split
    · exact ih _ rfl
    · exact ih st h

lemma snapFold_snapped_iff (pos off : ℚ) (ts : List ℚ) :
    ∀ st : SnapState, ((snapFold pos off ts st).snapped = true ↔
      st.snapped = true ∨ ∃ t ∈ ts, qabs (pos - t) < st.minDiff) := by
  induction ts with
  | nil => intro st; simp [snapFold]
  | cons t ts ih =>
    intro st
    rw [snapFold_cons]
    by_cases hc : qabs (pos - t) < st.minDiff
    · rw [if_pos hc]
      constructor
      · intro _
        exact Or.inr ⟨t, by simp, hc⟩
      · intro _
        exact snapFold_snapped_mono pos off ts _ rfl
    · rw [if_neg hc, ih st]
      constructor
      · rintro (h | ⟨u, hu, hlt⟩)
        · exact Or.inl h
        · exact Or.inr ⟨u, by simp [hu], hlt⟩
      · rintro (h | ⟨u, hu, hlt⟩)
        · exact Or.inl h
        · rcases List.mem_cons.mp hu with rfl | hu2
          · exact absurd hlt hc
          · exact Or.inr ⟨u, hu2, hlt⟩

lemma snapFold_eq_of_no_hit (pos off : ℚ) (ts : List ℚ) :
    ∀ st : SnapState,
      (∀ t ∈ ts, ¬(qabs (pos - t) < st.minDiff)) → snapFold pos off ts st = st := by
  induction ts with
  | nil => intro st _; rfl
  | cons t ts ih =>
    intro st h
    rw [snapFold_cons, if_neg (h t (by simp))]
    exact ih st (fun u hu => h u (by simp [hu]))

lemma snapFold_minDiff_le (pos off : ℚ) (ts : List ℚ) :
    ∀ st : SnapState, (snapFold pos off ts st).minDiff ≤ st.minDiff ∧
      ∀ t ∈ ts, (snapFold pos off ts st).minDiff ≤ qabs (pos - t) := by
  induction ts with
  | nil => intro st; exact ⟨le_refl _, by simp⟩
  | cons t ts ih =>
    intro st
    rw [snapFold_cons]
    by_cases hc : qabs (pos - t) < st.minDiff
    · rw [if_pos hc]
      obtain ⟨h1, h2⟩ := ih ⟨t - off, qabs (pos - t), st.lines ++ [t], true⟩
      refine ⟨le_trans h1 (le_of_lt hc), ?_⟩
      intro u hu
      rcases List.mem_cons.mp hu with rfl | hu2
      · exact h1
      · exact h2 u hu2
    · rw [if_neg hc]
      obtain ⟨h1, h2⟩ := ih st
      refine ⟨h1, ?_⟩
      intro u hu
      rcases List.mem_cons.mp hu with rfl | hu2
      · exact le_trans h1 (not_lt.mp hc)
      · exact h2 u hu2

lemma snapFold_winner (pos off : ℚ) (ts : List ℚ) :
    ∀ st : SnapState, (snapFold pos off ts st).snapped = true →
      (∃ t ∈ ts, (snapFold pos off ts st).nextX = t - off ∧
        qabs (pos - t) = (snapFold pos off ts st).minDiff ∧
        (snapFold pos off ts st).lines.getLast? = some t) ∨
      ((snapFold pos off ts st).nextX = st.nextX ∧
        (snapFold pos off ts st).minDiff = st.minDiff ∧
        (snapFold pos off ts st).lines = st.lines ∧ st.snapped = true) := by
  induction ts with
  | nil => intro st h; exact Or.inr ⟨rfl, rfl, rfl, h⟩
  | cons t ts ih =>
    intro st h
    rw [snapFold_cons] at h ⊢
    by_cases hc : qabs (pos - t) < st.minDiff
    · rw [if_pos hc] at h ⊢
      rcases ih _ h with ⟨u, hu, hx, hd, hl⟩ | ⟨hx, hd, hl, _⟩
      · exact Or.inl ⟨u, by simp [hu], hx, hd, hl⟩
      · refine Or.inl ⟨t, by simp, hx, ?_, ?_⟩
        · rw [hd]
        · rw [hl]
          simp
    · rw [if_neg hc] at h ⊢
      rcases ih st h with ⟨u, hu, hx, hd, hl⟩ | h2
      · exact Or.inl ⟨u, by simp [hu], hx, hd, hl⟩
      · exact Or.inr h2

lemma snapEdge_init (ts : List ℚ) (o thr start : ℚ) :
    snapEdge ts o ⟨start, thr, [], false⟩ = snapFold (start + o) o ts ⟨start, thr, [], false⟩ :=
  rfl

lemma guard_foldl_of_snapped (ts : List ℚ) (offs : List ℚ) :
    ∀ st : SnapState, st.snapped = true →
      offs.foldl (fun a off => if a.snapped then a else snapEdge ts off a) st = st := by
  induction offs with
  | nil => intro st _; rfl
  | cons o offs ih =>
    intro st h
    simp only [List.foldl_cons]
    rw [if_pos h]
    exact ih st h

lemma snapAxis_cons (thr : ℚ) (ts : List ℚ) (start o : ℚ) (offs : List ℚ) :
    snapAxis thr ts start (o :: offs) =
      if (snapEdge ts o ⟨start, thr, [], false⟩).snapped = true
      then snapEdge ts o ⟨start, thr, [], false⟩
      else snapAxis thr ts start offs := by
  simp only [snapAxis, List.foldl_cons]
  rw [if_neg (by simp : ¬((⟨start, thr, [], false⟩ : SnapState).snapped = true))]
  by_cases h : (snapEdge ts o ⟨start, thr, [], false⟩).snapped = true
  · rw [if_pos h]
    exact guard_foldl_of_snapped ts offs _ h
  · rw [if_neg h]
    have hinit : snapEdge ts o ⟨start, thr, [], false⟩ = ⟨start, thr, [], false⟩ := by
      rw [snapEdge_init]
      apply snapFold_eq_of_no_hit
      intro t ht hlt
      exact h ((snapFold_snapped_iff (start + o) o ts ⟨start, thr, [], false⟩).mpr
        (Or.inr ⟨t, ht, hlt⟩))
    rw [hinit]

/-- Claim C8 (amended).  Characterization of one axis of the drag snap
scan.  The axis snaps exactly when some edge offset has a candidate
within the threshold; when it does not snap, the position and the guide
lines are untouched; when it snaps, the snapping edge is the first one
in leading → center → trailing order to have a candidate within the
threshold (all earlier edges have none), the position is shifted so that
this edge aligns exactly with a candidate at the minimal distance over
all candidates, that distance is strictly below the threshold — but a
guide line was pushed at every candidate that improved the running
minimum, so several lines may be emitted for the one snapping edge, the
last of which is at the winning candidate. -/
theorem snapAxis_characterization (thr : ℚ) (ts : List ℚ) (start : ℚ) (offs : List ℚ) :
    ((snapAxis thr ts start offs).snapped = true ↔
      ∃ off ∈ offs, ∃ t ∈ ts, qabs (start + off - t) < thr) ∧
    ((snapAxis thr ts start offs).snapped = false →
      snapAxis thr ts start offs = ⟨start, thr, [], false⟩) ∧
    ((snapAxis thr ts start offs).snapped = true →
      ∃ pre off post, offs = pre ++ off :: post ∧
        (∀ o ∈ pre, ∀ t ∈ ts, ¬(qabs (start + o - t) < thr)) ∧
        ∃ t ∈ ts, (snapAxis thr ts start offs).nextX = t - off ∧
          qabs (start + off - t) = (snapAxis thr ts start offs).minDiff ∧
          (∀ u ∈ ts, (snapAxis thr ts start offs).minDiff ≤ qabs (start + off - u)) ∧
          (snapAxis thr ts start offs).minDiff < thr ∧
          (snapAxis thr ts start offs).lines.getLast? = some t) := by
  induction offs with
  | nil =>
    refine ⟨by simp [snapAxis], fun _ => rfl, by simp [snapAxis]⟩
  | cons o offs ih =>
    rw [snapAxis_cons]
    by_cases h : (snapEdge ts o ⟨start, thr, [], false⟩).snapped = true
    · rw [if_pos h]
      have hhit := (snapFold_snapped_iff (start + o) o ts ⟨start, thr, [], false⟩).mp
        (by rw [← snapEdge_init]; exact h)
      have hhit2 : ∃ t ∈ ts, qabs (start + o - t) < thr := by
        rcases hhit with hfalse | hex
        · simp at hfalse
        · exact hex
      refine ⟨?_, ?_, ?_⟩
      · constructor
        · intro _
          obtain ⟨t, ht, hlt⟩ := hhit2
          exact ⟨o, by simp, t, ht, hlt⟩
        · intro _
          exact h
      · intro hf
        rw [h] at hf
        cases hf
      · intro _
        refine ⟨[], o, offs, rfl, by simp, ?_⟩
        have hw := snapFold_winner (start + o) o ts ⟨start, thr, [], false⟩
        rw [← snapEdge_init] at hw
        rcases hw h with ⟨t, ht, hx, hd, hl⟩ | ⟨_, _, _, hcontra⟩
        · have hmin := snapFold_minDiff_le (start + o) o ts ⟨start, thr, [], false⟩
          rw [← snapEdge_init] at hmin
          obtain ⟨t0, ht0, hlt0⟩ := hhit2
          refine ⟨t, ht, hx, hd, fun u hu => hmin.2 u hu, ?_, hl⟩
          exact lt_of_le_of_lt (hmin.2 t0 ht0) hlt0
        · simp at hcontra
    · rw [if_neg h]
      obtain ⟨ih1, ih2, ih3⟩ := ih
      have hnohit : ∀ t ∈ ts, ¬(qabs (start + o - t) < thr) := by
        intro t ht hlt
        exact h ((snapFold_snapped_iff (start + o) o ts ⟨start, thr, [], false⟩).mpr
          (Or.inr ⟨t, ht, hlt⟩))
      refine ⟨?_, ih2, ?_⟩
      · rw [ih1]
        constructor
        · rintro ⟨off, hoff, hex⟩
          exact ⟨off, by simp [hoff], hex⟩
        · rintro ⟨off, hoff, t, ht, hlt⟩
          rcases List.mem_cons.mp hoff with rfl | hoff2
          · exact absurd hlt (hnohit t ht)
          · exact ⟨off, hoff2, t, ht, hlt⟩
      · intro hs
        obtain ⟨pre, off, post, heq, hpre, hrest⟩ := ih3 hs
        refine ⟨o :: pre, off, post, by rw [heq, List.cons_append], ?_, hrest⟩
        intro o2 ho2
        rcases List.mem_cons.mp ho2 with rfl | ho3
        · exact hnohit
        · exact hpre o2 ho3

/-- Witness for C8 at a concrete axis scan that does not snap. -/
theorem snapAxis_characterization_witness :
    (snapAxis (1 / 2) [10] 90 [0]).snapped = false ∧
    snapAxis (1 / 2) [10] 90 [0] = ⟨90, 1 / 2, [], false⟩ :=
  ⟨by norm_num [snapAxis, snapEdge, snapFold, qabs],
   (snapAxis_characterization (1 / 2) [10] 90 [0]).2.1
     (by norm_num [snapAxis, snapEdge, snapFold, qabs])⟩

/-- Counterexample to C8 as stated: in a drag tick where only the x
axis snaps, two guide lines are emitted (one per improving candidate),
not one.  The moving element (left edge proposed at 50.3) first snaps to
the candidate 50, then to the strictly closer sibling edge 50.2. -/
theorem snap_two_lines_counterexample :
    (moveHandler ⟨1, 0, 0, 50, 33, 20, 1, 0, 1⟩ 0
      [⟨1, 0, 0, 50, 33, 20, 1, 0, 1⟩, ⟨2, 0, 0, 251 / 5, 7, 20, 1, 0, 1⟩] []
      1 (3 / 10) 0).lines = [⟨true, 50⟩, ⟨true, 251 / 5⟩] ∧
    ¬((moveHandler ⟨1, 0, 0, 50, 33, 20, 1, 0, 1⟩ 0
      [⟨1, 0, 0, 50, 33, 20, 1, 0, 1⟩, ⟨2, 0, 0, 251 / 5, 7, 20, 1, 0, 1⟩] []
      1 (3 / 10) 0).lines.length = 1) := by
  constructor <;>
    norm_num [moveHandler, snapAxis, snapEdge, snapFold, hPctOf, qmin, qmax, qabs,
      List.filter, List.flatMap, List.foldl]

/-! ## Resize handler (App.tsx `handleResizeStart`/`handleMove`, lines
622-740)

Every move tick recomputes from the session-start element snapshot
(`resizeMode.startSig`) and the cumulative pixel delta.  Width is
floored at 1 and x at 0 at the end of the tick; no other bound is
enforced. -/

/-- One resize move tick (`handleMove`, App.tsx lines 643-711), applied
to the session-start element `s` with handle direction flags, the
aspect-lock toggle, the canvas rectangle dimensions and the cumulative
pointer delta in percent. -/
def resizeStep (s : SigElement) (hasE hasW hasN hasS : Bool) (locked : Bool)
    (rectW rectH dXPct dYPct : ℚ) : SigElement :=
  let getHPct : ℚ → ℚ → ℚ := fun w r => w * rectW / r / rectH
  let width := s.width
  let x := s.x
  let y := s.y
  if locked then
    let nW1 := if hasE then qmax 1 (width + dXPct) else width
    let change := qmin dXPct (width - 1)
    let nW2 := if hasW then width - change else nW1
    let nX := if hasW then x + change else x
    let nY := if hasN then y - (getHPct nW2 s.aspectRatio - getHPct width s.aspectRatio) else y
    let nWf := if nW2 < 1 then 1 else nW2
    let nXf := if nX < 0 then 0 else nX
    ⟨s.id, s.dataUrl, s.pageIndex, nXf, nY, nWf, s.aspectRatio, s.rotation, s.opacity⟩
  else
    let nH0 := getHPct width s.aspectRatio
    let nW1 := if hasE then qmax 1 (width + dXPct)
               else if hasW then width - qmin dXPct (width - 1) else width
    let nX1 := if hasE then x else if hasW then x + qmin dXPct (width - 1) else x
    let nH1 := if hasS then qmax (1 / 2) (nH0 + dYPct)
               else if hasN then nH0 - qmin dYPct (nH0 - 1 / 2) else nH0
    let nY1 := if hasS then y else if hasN then y + qmin dYPct (nH0 - 1 / 2) else y
    let ar1 := (nW1 / 100 * rectW) / (nH1 / 100 * rectH)
    let nWf := if nW1 < 1 then 1 else nW1
    let nXf := if nX1 < 0 then 0 else nX1
    ⟨s.id, s.dataUrl, s.pageIndex, nXf, nY1, nWf, ar1, s.rotation, s.opacity⟩

lemma qmin_le_right (a b : ℚ) : qmin a b ≤ b := by
  unfold qmin
  split
  · assumption
  · exact le_refl b

lemma le_qmin {c a b : ℚ} (h1 : c ≤ a) (h2 : c ≤ b) : c ≤ qmin a b := by
  unfold qmin
  split
  · exact h1
  · exact h2

lemma le_qmax_right (a b : ℚ) : b ≤ qmax a b := by
  unfold qmax
  split
  · exact le_refl b
  · linarith [lt_of_not_le (by assumption : ¬a ≤ b)]

lemma moveHandler_x_shape (sig : SigElement) (page : ℕ) (allSigs : List SigElement)
    (targets : List SnapRect) (ratio dx dy : ℚ) :
    ∃ v, (moveHandler sig page allSigs targets ratio dx dy).x =
      qmin (qmax v 0) (100 - sig.width) :=
  ⟨_, rfl⟩

lemma moveHandler_y_shape (sig : SigElement) (page : ℕ) (allSigs : List SigElement)
    (targets : List SnapRect) (ratio dx dy : ℚ) :
    ∃ v, (moveHandler sig page allSigs targets ratio dx dy).y =
      qmin (qmax v 0) (100 - hPctOf sig ratio) :=
  ⟨_, rfl⟩

lemma resizeStep_width_shape (s : SigElement) (hasE hasW hasN hasS locked : Bool)
    (rectW rectH dXPct dYPct : ℚ) :
    ∃ w0, (resizeStep s hasE hasW hasN hasS locked rectW rectH dXPct dYPct).width =
      if w0 < 1 then 1 else w0 := by
  cases locked
  · exact ⟨_, rfl⟩
  · exact ⟨_, rfl⟩

lemma resizeStep_x_shape (s : SigElement) (hasE hasW hasN hasS locked : Bool)
    (rectW rectH dXPct dYPct : ℚ) :
    ∃ x0, (resizeStep s hasE hasW hasN hasS locked rectW rectH dXPct dYPct).x =
      if x0 < 0 then 0 else x0 := by
  cases locked
  · exact ⟨_, rfl⟩
  · exact ⟨_, rfl⟩

/-- Claim C1 (amended).  The drag move handler clamps the dragged
element into the page (given an element that fits: width ≤ 100 and
derived height percentage ≤ 100), so after any drag session x ∈
[0, 100 - width] and y ∈ [0, 100 - height%].  The resize handler, in
contrast, only floors width at 1 and x at 0: it enforces neither
x + width ≤ 100 nor any bound on y. -/
theorem clamped_position_amended :
    (∀ (sig : SigElement) (page : ℕ) (allSigs : List SigElement) (targets : List SnapRect)
        (ratio dx dy : ℚ), sig.width ≤ 100 → hPctOf sig ratio ≤ 100 →
      0 ≤ (moveHandler sig page allSigs targets ratio dx dy).x ∧
      (moveHandler sig page allSigs targets ratio dx dy).x + sig.width ≤ 100 ∧
      0 ≤ (moveHandler sig page allSigs targets ratio dx dy).y ∧
      (moveHandler sig page allSigs targets ratio dx dy).y ≤ 100 - hPctOf sig ratio) ∧
    (∀ (s : SigElement) (hasE hasW hasN hasS locked : Bool) (rectW rectH dXPct dYPct : ℚ),
      1 ≤ (resizeStep s hasE hasW hasN hasS locked rectW rectH dXPct dYPct).width ∧
      0 ≤ (resizeStep s hasE hasW hasN hasS locked rectW rectH dXPct dYPct).x) := by
  constructor
  · intro sig page allSigs targets ratio dx dy hw hh
    obtain ⟨v, hv⟩ := moveHandler_x_shape sig page allSigs targets ratio dx dy
    obtain ⟨u, hu⟩ := moveHandler_y_shape sig page allSigs targets ratio dx dy
    rw [hv, hu]
    refine ⟨le_qmin (le_qmax_right v 0) (by linarith), ?_,
      le_qmin (le_qmax_right u 0) (by linarith), ?_⟩
    · have := qmin_le_right (qmax v 0) (100 - sig.width)
      linarith
    · exact qmin_le_right (qmax u 0) (100 - hPctOf sig ratio)
  · intro s hasE hasW hasN hasS locked rectW rectH dXPct dYPct
    obtain ⟨w0, hw0⟩ := resizeStep_width_shape s hasE hasW hasN hasS locked rectW rectH dXPct dYPct
    obtain ⟨x0, hx0⟩ := resizeStep_x_shape s hasE hasW hasN hasS locked rectW rectH dXPct dYPct
    rw [hw0, hx0]
    constructor
    · split
      · exact le_refl 1
      · linarith [not_lt.mp (by assumption : ¬w0 < 1)]
    · split
      · exact le_refl 0
      · linarith [not_lt.mp (by assumption : ¬x0 < 0)]

/-- Witness for C1 (amended) at a concrete drag tick. -/
theorem clamped_position_amended_witness :
    (⟨1, 0, 0, 40, 40, 20, 1, 0, 1⟩ : SigElement).width ≤ 100 ∧
    hPctOf ⟨1, 0, 0, 40, 40, 20, 1, 0, 1⟩ 1 ≤ 100 ∧
    (0 ≤ (moveHandler ⟨1, 0, 0, 40, 40, 20, 1, 0, 1⟩ 0 [] [] 1 5 5).x ∧
      (moveHandler ⟨1, 0, 0, 40, 40, 20, 1, 0, 1⟩ 0 [] [] 1 5 5).x +
        (⟨1, 0, 0, 40, 40, 20, 1, 0, 1⟩ : SigElement).width ≤ 100 ∧
      0 ≤ (moveHandler ⟨1, 0, 0, 40, 40, 20, 1, 0, 1⟩ 0 [] [] 1 5 5).y ∧
      (moveHandler ⟨1, 0, 0, 40, 40, 20, 1, 0, 1⟩ 0 [] [] 1 5 5).y ≤
        100 - hPctOf ⟨1, 0, 0, 40, 40, 20, 1, 0, 1⟩ 1) :=
  ⟨by norm_num, by norm_num [hPctOf],
   clamped_position_amended.1 ⟨1, 0, 0, 40, 40, 20, 1, 0, 1⟩ 0 [] [] 1 5 5
     (by norm_num) (by norm_num [hPctOf])⟩

/-- Counterexample to C1 as stated: a single aspect-locked resize tick
with the south-east handle on an element at x = 50, width = 40, dragged
20 percentage points to the right, ends the session with x + width =
110 > 100 — the element is off the right page edge at pointer-up. -/
theorem clamped_position_counterexample :
    ¬((resizeStep ⟨1, 0, 0, 50, 40, 40, 2, 0, 1⟩ true false false true true 100 100 20 0).x +
      (resizeStep ⟨1, 0, 0, 50, 40, 40, 2, 0, 1⟩ true false false true true 100 100 20 0).width
        ≤ 100) := by
  norm_num [resizeStep, qmin, qmax]

/-! ## Color parsing (App.tsx `hexToRgb`, lines 16-23)

The source matches the color string against the anchored
case-insensitive pattern `#?([a-f\d]{2})([a-f\d]{2})([a-f\d]{2})`, and
on success divides each parsed byte by 255; otherwise returns black. -/

/-- One case-insensitive hex digit (`[a-f\d]` with the `i` flag). -/
def isHexDig (c : Char) : Bool :=
  (48 ≤ c.toNat && c.toNat ≤ 57) ||
  (97 ≤ c.toNat && c.toNat ≤ 102) ||
  (65 ≤ c.toNat && c.toNat ≤ 70)

/-- Numeric value of a hex digit, 0 on other characters. -/
def hexVal (c : Char) : ℕ :=
  if 48 ≤ c.toNat ∧ c.toNat ≤ 57 then c.toNat - 48
  else if 97 ≤ c.toNat ∧ c.toNat ≤ 102 then c.toNat - 97 + 10
  else if 65 ≤ c.toNat ∧ c.toNat ≤ 70 then c.toNat - 65 + 10
  else 0

/-- `parseInt(two hex digits, 16)`. -/
def byteVal (c1 c2 : Char) : ℕ := 16 * hexVal c1 + hexVal c2

/-- The optional leading `#` of the pattern. -/
def stripHash : List Char → List Char
  | [] => []
  | c :: rest => if c = '#' then rest else c :: rest

/-- `hexToRgb` (App.tsx lines 16-23): channels in [0,1] on a match,
black otherwise. -/
def hexToRgb (s : List Char) : ℚ × ℚ × ℚ :=
  match stripHash s with
  | [a, b, c, d, e, f] =>
    if isHexDig a && isHexDig b && isHexDig c && isHexDig d && isHexDig e && isHexDig f then
      ((byteVal a b : ℚ) / 255, (byteVal c d : ℚ) / 255, (byteVal e f : ℚ) / 255)
    else (0, 0, 0)
  | _ => (0, 0, 0)

/-- The claim-side format predicate: a 6-digit hex color, optionally
prefixed with `#`. -/
def GoodHex (s : List Char) : Prop :=
  ∃ t : List Char, (s = t ∨ s = '#' :: t) ∧ t.length = 6 ∧ ∀ c ∈ t, isHexDig c = true

lemma hexVal_le_15 (c : Char) : hexVal c ≤ 15 := by
  unfold hexVal
  split
  · omega
  · split
    · omega
    · split
      · omega
      · omega

lemma byteVal_le_255 (c1 c2 : Char) : byteVal c1 c2 ≤ 255 := by
  unfold byteVal
  have h1 := hexVal_le_15 c1
  have h2 := hexVal_le_15 c2
  omega

lemma length_six {l : List Char} (h : l.length = 6) :
    ∃ a b c d e f, l = [a, b, c, d, e, f] := by
  rcases l with _ | ⟨a, l1⟩
  · simp at h
  rcases l1 with _ | ⟨b, l2⟩
  · simp at h
  rcases l2 with _ | ⟨c, l3⟩
  · simp at h
  rcases l3 with _ | ⟨d, l4⟩
  · simp at h
  rcases l4 with _ | ⟨e, l5⟩
  · simp at h
  rcases l5 with _ | ⟨f, l6⟩
  · simp at h
  rcases l6 with _ | ⟨g, l7⟩
  · exact ⟨a, b, c, d, e, f, rfl⟩
  · simp at h

lemma stripHash_or (s : List Char) : s = stripHash s ∨ s = '#' :: stripHash s := by
  cases s with
  | nil => exact Or.inl rfl
  | cons c rest =>
    by_cases hc : c = '#'
    · subst hc
      exact Or.inr (by simp [stripHash])
    · exact Or.inl (by simp [stripHash, hc])

lemma hexToRgb_body (s : List Char) (a b c d e f : Char)
    (hs : stripHash s = [a, b, c, d, e, f]) :
    hexToRgb s =
      if isHexDig a && isHexDig b && isHexDig c && isHexDig d &&
          isHexDig e && isHexDig f then
        ((byteVal a b : ℚ) / 255, (byteVal c d : ℚ) / 255, (byteVal e f : ℚ) / 255)
      else (0, 0, 0) := by
  unfold hexToRgb
  rw [hs]

lemma stripHash_of_goodhex {s t : List Char} (hst : s = t ∨ s = '#' :: t)
    (hlen : t.length = 6) (hall : ∀ c ∈ t, isHexDig c = true) : stripHash s = t := by
  rcases hst with rfl | rfl
  · obtain ⟨a, b, c, d, e, f, rfl⟩ := length_six hlen
    have ha : isHexDig a = true := hall a (by simp)
    have hne : ¬(a = '#') := by
      intro hq
      rw [hq] at ha
      simp [isHexDig] at ha
    simp [stripHash, hne]
  · simp [stripHash]

/-- Claim C10.  For every color string in 6-digit hex form (optionally
`#`-prefixed), `hexToRgb` returns each channel as the parsed byte over
255 (each byte at most 255); for every other string it returns black,
so document export never fails on an unparseable stroke color. -/
theorem hexToRgb_spec (s : List Char) :
    (GoodHex s → ∃ t : List Char, (s = t ∨ s = '#' :: t) ∧
      hexToRgb s = ((byteVal (t.getD 0 ' ') (t.getD 1 ' ') : ℚ) / 255,
        (byteVal (t.getD 2 ' ') (t.getD 3 ' ') : ℚ) / 255,
        (byteVal (t.getD 4 ' ') (t.getD 5 ' ') : ℚ) / 255) ∧
      byteVal (t.getD 0 ' ') (t.getD 1 ' ') ≤ 255 ∧
      byteVal (t.getD 2 ' ') (t.getD 3 ' ') ≤ 255 ∧
      byteVal (t.getD 4 ' ') (t.getD 5 ' ') ≤ 255) ∧
    (¬GoodHex s → hexToRgb s = (0, 0, 0)) := by
  constructor
  · rintro ⟨t, hst, hlen, hall⟩
    have hbody := stripHash_of_goodhex hst hlen hall
    obtain ⟨a, b, c, d, e, f, rfl⟩ := length_six hlen
    refine ⟨[a, b, c, d, e, f], hst, ?_, ?_, ?_, ?_⟩
    · have hcond : (isHexDig a && isHexDig b && isHexDig c && isHexDig d &&
          isHexDig e && isHexDig f) = true := by
        simp only [Bool.and_eq_true]
        exact ⟨⟨⟨⟨⟨hall a (by simp), hall b (by simp)⟩, hall c (by simp)⟩,
          hall d (by simp)⟩, hall e (by simp)⟩, hall f (by simp)⟩
      rw [hexToRgb_body s a b c d e f hbody, if_pos hcond]
      simp
    · simpa using byteVal_le_255 a b
    · simpa using byteVal_le_255 c d
    · simpa using byteVal_le_255 e f
  · intro hng
    unfold hexToRgb
    split
    · rename_i a b c d e f heq
      split
      · rename_i hcond
        exfalso
        apply hng
        refine ⟨[a, b, c, d, e, f], ?_, rfl, ?_⟩
        · rcases stripHash_or s with hss | hss
          · exact Or.inl (by rw [hss, heq])
          · exact Or.inr (by rw [hss, heq])
        · intro ch hch
          simp only [Bool.and_eq_true] at hcond
          obtain ⟨⟨⟨⟨⟨ha, hb⟩, hc⟩, hd⟩, he⟩, hf⟩ := hcond
          simp only [List.mem_cons, List.not_mem_nil, or_false] at hch
          rcases hch with rfl | rfl | rfl | rfl | rfl | rfl
          · exact ha
          · exact hb
          · exact hc
          · exact hd
          · exact he
          · exact hf
      · rfl
    · rfl

/-- Witness for C10 on the concrete color string "#1A2b3C". -/
theorem hexToRgb_spec_witness :
    GoodHex ['#', '1', 'A', '2', 'b', '3', 'C'] ∧
    ∃ t : List Char,
      (['#', '1', 'A', '2', 'b', '3', 'C'] = t ∨
        ['#', '1', 'A', '2', 'b', '3', 'C'] = '#' :: t) ∧
      hexToRgb ['#', '1', 'A', '2', 'b', '3', 'C'] =
        ((byteVal (t.getD 0 ' ') (t.getD 1 ' ') : ℚ) / 255,
          (byteVal (t.getD 2 ' ') (t.getD 3 ' ') : ℚ) / 255,
          (byteVal (t.getD 4 ' ') (t.getD 5 ' ') : ℚ) / 255) ∧
      byteVal (t.getD 0 ' ') (t.getD 1 ' ') ≤ 255 ∧
      byteVal (t.getD 2 ' ') (t.getD 3 ' ') ≤ 255 ∧
      byteVal (t.getD 4 ' ') (t.getD 5 ' ') ≤ 255 :=
  have hg : GoodHex ['#', '1', 'A', '2', 'b', '3', 'C'] :=
    ⟨['1', 'A', '2', 'b', '3', 'C'], Or.inr rfl, rfl, by decide⟩
  ⟨hg, (hexToRgb_spec ['#', '1', 'A', '2', 'b', '3', 'C']).1 hg⟩

/-! ## Document export of strokes (`handleDownload`, App.tsx lines
867-895)

For each stroke with at least two points the loop emits one `drawLine`
command per consecutive point pair, mapping each normalized point
`(x, y)` to PDF point-space as `(x * pageWidth, pageHeight - y *
pageHeight)`, with the stroke thickness passed through unscaled. -/

/-- One `page.drawLine(...)` invocation. -/
structure LineCmd where
  startP : ℚ × ℚ
  endP : ℚ × ℚ
  thickness : ℚ
  color : ℚ × ℚ × ℚ
  opacity : ℚ
deriving DecidableEq

/-- The normalized-to-PDF point map of the stroke loop (App.tsx lines
887-888). -/
def mapPdfPoint (pw ph : ℚ) (p : StrokePoint) : ℚ × ℚ :=
  (p.x * pw, ph - p.y * ph)

/-- The `drawLine` commands emitted for one stroke: the loop over
`j = 0 .. points.length - 2` of App.tsx lines 882-893, guarded by the
two-point minimum of line 876. -/
def drawStrokeCmds (pw ph : ℚ) (st : Stroke) : List LineCmd :=
  if st.points.length < 2 then []
  else
    (List.range (st.points.length - 1)).map (fun j =>
      ⟨mapPdfPoint pw ph (st.points.getD j ⟨0, 0⟩),
       mapPdfPoint pw ph (st.points.getD (j + 1) ⟨0, 0⟩),
       st.width, hexToRgb st.color, 1⟩)

lemma range_map_pairs {β : Type} (f : StrokePoint → StrokePoint → β) (d : StrokePoint) :
    ∀ l : List StrokePoint,
      (List.range (l.length - 1)).map (fun j => f (l.getD j d) (l.getD (j + 1) d)) =
        (l.zip l.tail).map (fun p => f p.1 p.2) := by
  intro l
  induction l with
  | nil => simp
  | cons a t ih =>
    cases t with
    | nil => simp
    | cons b t2 =>
      have hlen : (a :: b :: t2).length - 1 = t2.length + 1 := by simp
      rw [hlen, List.range_succ_eq_map, List.map_cons, List.map_map]
      have hlen2 : (b :: t2).length - 1 = t2.length := by simp
      rw [hlen2] at ih
      simp only [Function.comp_def, List.getD_cons_succ, List.getD_cons_zero] at ih ⊢
      rw [ih]
      simp

/-- Claim C5.  Every stroke point with normalized coordinates (x, y) is
mapped to PDF point-space as (x * pageWidth, pageHeight - y *
pageHeight), with thickness passed through unscaled: the emitted command
list is exactly one command per consecutive point pair with both
endpoints so mapped, and in particular (1/2, 0) maps to
(1/2 * pageWidth, pageHeight). -/
theorem stroke_pdf_mapping (pw ph : ℚ) (st : Stroke) :
    drawStrokeCmds pw ph st =
      (st.points.zip st.points.tail).map (fun p =>
        ⟨(p.1.x * pw, ph - p.1.y * ph), (p.2.x * pw, ph - p.2.y * ph),
         st.width, hexToRgb st.color, 1⟩) ∧
    mapPdfPoint pw ph ⟨1 / 2, 0⟩ = (1 / 2 * pw, ph) := by
  constructor
  · unfold drawStrokeCmds
    split
    · rename_i hshort
      rcases hp : st.points with _ | ⟨p, _ | ⟨q, rest⟩⟩
      · simp
      · simp
      · rw [hp] at hshort
        simp only [List.length_cons] at hshort
        omega
    · rw [range_map_pairs (fun p1 p2 =>
        (⟨mapPdfPoint pw ph p1, mapPdfPoint pw ph p2,
          st.width, hexToRgb st.color, 1⟩ : LineCmd)) ⟨0, 0⟩ st.points]
      simp [mapPdfPoint]
  · simp [mapPdfPoint]

/-! ## Element rotation in the two export paths

Document export (`handleDownload`, App.tsx lines 897-939) computes the
element footprint in PDF point-space, and for a nonzero rotation passes
`degrees(sig.rotation * -1)` to the library and moves the anchor from
the bottom-left corner to `center - R(rads) · (w/2, h/2)` with
`rads = -rotation` in radians, so that the pivot is the visual center.

Raster export (`handleExportPageAsImage`, App.tsx lines 1008-1039)
draws on a canvas with `translate(cx, cy); rotate(θ); translate(-cx,
-cy)` and then `drawImage` at the unrotated top-left, i.e. rotation by
`+θ` about the element center in screen convention (y axis pointing
down).

Cosine and sine are abstracted: `c` and `s` stand for the cosine and
sine of the rotation angle θ.  Document export computes `Math.cos` and
`Math.sin` of `rads = -θ`, which equal `c` and `-s` (the even/odd trig
identities), so the document-side maps below receive `c` and `-s`. -/

/-- `ctx.translate`. -/
def translateMap (tx ty : ℚ) (p : ℚ × ℚ) : ℚ × ℚ := (p.1 + tx, p.2 + ty)

/-- `ctx.rotate` with cosine `c` and sine `s`, in canvas (y-down)
coordinates. -/
def rotateMap (c s : ℚ) (p : ℚ × ℚ) : ℚ × ℚ :=
  (c * p.1 - s * p.2, s * p.1 + c * p.2)

/-- Raster-export position of the image-local point `(u, v)` (top-left
origin, y down, in raster pixels) of an element, after the canvas
transform sequence of App.tsx lines 1025-1032. -/
def rasterImagePoint (vw vh c s : ℚ) (sig : SigElement) (u v : ℚ) : ℚ × ℚ :=
  let w := sig.width / 100 * vw
  let h := w / sig.aspectRatio
  let x := sig.x / 100 * vw
  let y := sig.y / 100 * vh
  let cx := x + w / 2
  let cy := y + h / 2
  translateMap cx cy (rotateMap c s (translateMap (-cx) (-cy) (x + u, y + v)))

/-- Document-export image width (App.tsx line 904). -/
def docW (pw : ℚ) (sig : SigElement) : ℚ := sig.width / 100 * pw

/-- Document-export image height (App.tsx line 905). -/
def docH (pw : ℚ) (sig : SigElement) : ℚ := docW pw sig / sig.aspectRatio

/-- Document-export unrotated x (App.tsx line 908). -/
def docX (pw : ℚ) (sig : SigElement) : ℚ := sig.x / 100 * pw

/-- Document-export unrotated y, Y-flipped with the bottom-left anchor
(App.tsx lines 909-911). -/
def docY (pw ph : ℚ) (sig : SigElement) : ℚ :=
  ph - sig.y / 100 * ph - docH pw sig

/-- The options record passed to `page.drawImage` (App.tsx lines
913-938): position, size, and the conditional rotation field. -/
structure DocDraw where
  x : ℚ
  y : ℚ
  w : ℚ
  h : ℚ
  rotate : Option ℚ
deriving DecidableEq

/-- Build the draw options for one element (App.tsx lines 913-936).
`cosR` and `sinR` are the values of `Math.cos(rads)` and
`Math.sin(rads)` for `rads = -rotation` in radians. -/
def docDraw (pw ph cosR sinR : ℚ) (sig : SigElement) : DocDraw :=
  if sig.rotation = 0 then
    ⟨docX pw sig, docY pw ph sig, docW pw sig, docH pw sig, none⟩
  else
    let rotX := docW pw sig / 2 * cosR - docH pw sig / 2 * sinR
    let rotY := docW pw sig / 2 * sinR + docH pw sig / 2 * cosR
    let centerX := docX pw sig + docW pw sig / 2
    let centerY := docY pw ph sig + docH pw sig / 2
    ⟨centerX - rotX, centerY - rotY, docW pw sig, docH pw sig, some (sig.rotation * -1)⟩

/-- Modelled from the spec: the PDF mutation library (an external
collaborator, section 6 of the spec) draws the embedded image with its
bottom-left corner at the option position, rotated by the `rotate`
option about that anchor in the PDF (y-up, counter-clockwise-positive)
convention; `(u, v)` is the image-local point from the anchor and
`cosR`/`sinR` are the cosine and sine of the rotate angle. -/
def pdfImagePoint (d : DocDraw) (cosR sinR u v : ℚ) : ℚ × ℚ :=
  match d.rotate with
  | none => (d.x + u, d.y + v)
  | some _ => (d.x + (cosR * u - sinR * v), d.y + (sinR * u + cosR * v))

/-- Claim C4.  For a nonzero rotation θ with cosine `c` and sine `s`:
document export passes the library the rotation `-θ` (for θ = 30 this is
-30, while raster export rotates by the native +30), places the anchor
so that the image center lands exactly on the unrotated visual center
(pivot is the center); raster export keeps the element center fixed; and
the two paths agree point-for-point — the raster position (at any scale
factor `k`) of each image point is the Y-flip of the document position
of the corresponding image point, so both produce the same visual
orientation. -/
theorem rotation_sign_divergence (pw ph k c s u v : ℚ) (sig : SigElement)
    (hr : sig.rotation ≠ 0) :
    (docDraw pw ph c (-s) sig).rotate = some (-sig.rotation) ∧
    (sig.rotation = 30 → (docDraw pw ph c (-s) sig).rotate = some (-30)) ∧
    pdfImagePoint (docDraw pw ph c (-s) sig) c (-s) (docW pw sig / 2) (docH pw sig / 2) =
      (docX pw sig + docW pw sig / 2, docY pw ph sig + docH pw sig / 2) ∧
    rasterImagePoint (k * pw) (k * ph) c s sig (sig.width / 100 * (k * pw) / 2)
        (sig.width / 100 * (k * pw) / sig.aspectRatio / 2) =
      (sig.x / 100 * (k * pw) + sig.width / 100 * (k * pw) / 2,
       sig.y / 100 * (k * ph) + sig.width / 100 * (k * pw) / sig.aspectRatio / 2) ∧
    rasterImagePoint (k * pw) (k * ph) c s sig (k * u) (k * (docH pw sig - v)) =
      (k * (pdfImagePoint (docDraw pw ph c (-s) sig) c (-s) u v).1,
       k * (ph - (pdfImagePoint (docDraw pw ph c (-s) sig) c (-s) u v).2)) := by
  have hd : docDraw pw ph c (-s) sig =
      ⟨(docX pw sig + docW pw sig / 2) -
          (docW pw sig / 2 * c - docH pw sig / 2 * (-s)),
        (docY pw ph sig + docH pw sig / 2) -
          (docW pw sig / 2 * (-s) + docH pw sig / 2 * c),
        docW pw sig, docH pw sig, some (sig.rotation * -1)⟩ := by
    rw [docDraw, if_neg hr]
  refine ⟨?_, ?_, ?_, ?_, ?_⟩
  · rw [hd]
    simp [mul_neg_one]
  · intro h30
    rw [hd, h30]
    norm_num
  · rw [hd]
    simp only [pdfImagePoint]
    apply Prod.ext <;> ring
  · simp only [rasterImagePoint, translateMap, rotateMap]
    apply Prod.ext <;> (simp only; ring)
  · rw [hd]
    simp only [pdfImagePoint, rasterImagePoint, translateMap, rotateMap,
      docW, docH, docX, docY]
    apply Prod.ext <;> (simp only; ring)

/-- Witness for C4 at a concrete rotated element. -/
theorem rotation_sign_divergence_witness :
    ((⟨1, 0, 0, 40, 40, 20, 2, 30, 1⟩ : SigElement).rotation ≠ 0) ∧
    (docDraw 100 200 (1 / 2) (-(2 / 3)) ⟨1, 0, 0, 40, 40, 20, 2, 30, 1⟩).rotate =
      some (-30) :=
  ⟨by norm_num,
   (rotation_sign_divergence 100 200 2 (1 / 2) (2 / 3) 3 4
     ⟨1, 0, 0, 40, 40, 20, 2, 30, 1⟩ (by norm_num)).1⟩

end ESign
